import Mathlib

/-!
Verification of the nxviz layout / edge-geometry / visual-encoding engine.

The definitions below are shallow embeddings of the Python source files
`nxviz/polcart.py`, `nxviz/geometry.py`, `nxviz/utils.py`,
`nxviz/encodings.py`, `nxviz/nodes.py`, `nxviz/edges.py`,
`nxviz/layouts.py` and `nxviz/lines.py`.  Machine floats are modelled by
exact reals (`ℝ`) for the trigonometric pipeline and by rationals (`ℚ`)
for attribute data; Python `assert` / `raise` statements are modelled by
`Except String`; Python's float `%` is modelled by `pymod` (result takes
the sign of the divisor, `x - y * ⌊x / y⌋`).
-/

open Real

noncomputable section

namespace Nxviz

/-! ## polcart.py -/

/-- Python float modulo: `x % y = x - y * floor(x / y)` (sign of divisor). -/
def pymod (x y : ℝ) : ℝ := x - y * ⌊x / y⌋

/-- `to_proper_radians` from `nxviz/polcart.py`:
`if theta > pi or theta < -pi: theta = theta % pi`. -/
def to_proper_radians (theta : ℝ) : ℝ :=
  if theta > π ∨ theta < -π then pymod theta π else theta

/-- `to_proper_degrees` from `nxviz/polcart.py`:
`if theta > 180 or theta < -180: theta = theta % 180`. -/
def to_proper_degrees (theta : ℝ) : ℝ :=
  if theta > 180 ∨ theta < -180 then pymod theta 180 else theta

/-- `to_degrees` from `nxviz/polcart.py`. -/
def to_degrees (theta : ℝ) : ℝ := to_proper_radians theta / π * 180

/-- `to_radians` from `nxviz/polcart.py`. -/
def to_radians (theta : ℝ) : ℝ := to_proper_degrees theta * π / 180

/-- `numpy.arctan2 y x`: the angle of the point `(x, y)` in `(-π, π]`,
modelled by the argument of the complex number `x + y*I`. -/
def atan2 (y x : ℝ) : ℝ := Complex.arg (Complex.mk x y)

/-- `to_cartesian` from `nxviz/polcart.py` (radians branch):
normalizes the angle with `to_proper_radians`, then
`x = r*cos(theta)`, `y = r*sin(theta)`. -/
def to_cartesian (r theta : ℝ) : ℝ × ℝ :=
  let t := to_proper_radians theta
  (r * Real.cos t, r * Real.sin t)

/-- `to_polar` from `nxviz/polcart.py` (radians branch):
`theta = atan2(y, x)`, `r = sqrt(x^2 + y^2)`. -/
def to_polar (x y : ℝ) : ℝ × ℝ :=
  (Real.sqrt (x ^ 2 + y ^ 2), atan2 y x)

/-! ## geometry.py -/

/-- `item_theta` from `nxviz/geometry.py`.  The two `assert` statements are
modelled as `Except.error`; on success the angle is
`i * 2 * pi / len(nodelist)` where `i` is the index of `node`. -/
def item_theta {α : Type} [DecidableEq α] (nodelist : List α) (node : α) :
    Except String ℝ :=
  if nodelist.length = 0 then .error "nodelist must be a list of items."
  else if node ∉ nodelist then .error "node must be inside nodelist."
  else .ok ((nodelist.indexOf node : ℕ) * 2 * π / nodelist.length)

/-- `circos_radius` from `nxviz/geometry.py`:
`A = 2*pi/n_nodes`, `B = (pi - A)/2`, `a = 2*node_radius`,
result `a * sin(B) / sin(A)`.  The source has no domain check. -/
def circos_radius (n_nodes : ℕ) (node_radius : ℝ) : ℝ :=
  let A := 2 * π / n_nodes
  let B := (π - A) / 2
  let a := 2 * node_radius
  a * Real.sin B / Real.sin A

/-- `correct_hive_angles` from `nxviz/geometry.py`: four sequential `if`
statements mutating `start` and `end`, later tests seeing earlier writes. -/
def correct_hive_angles (start end_ : ℝ) : ℝ × ℝ :=
  let p1 := if start > π ∧ end_ = 0 then (start, 2 * π) else (start, end_)
  let p2 := if p1.1 < π ∧ p1.2 = 0 then (p1.2, p1.1) else p1
  let p3 := if p2.2 < π ∧ p2.1 = 2 * π then ((0 : ℝ), p2.2) else p2
  let p4 := if p3.2 > π ∧ p3.1 = 0 then (2 * π, p3.2) else p3
  p4

end Nxviz

end

namespace Nxviz

/-! ## utils.py — data model and `infer_data_family`

A pandas `Series` is modelled by its dtype tag, its column name and its
list of values.  Values are rationals (floats and ints embed into `ℚ`;
object/categorical tokens are modelled as distinct rationals, since the
code only ever compares them for equality and counts distinct ones). -/

/-- The pandas dtypes distinguished by `infer_data_family`. -/
inductive DType : Type
  | float
  | int
  | obj
deriving DecidableEq, Repr

/-- A pandas `Series`: dtype, `.name`, and the list of values. -/
structure Column : Type where
  name : String
  dtype : DType
  values : List ℚ
deriving DecidableEq, Repr

/-- `infer_data_family` from `nxviz/utils.py`:
float dtype ⟶ "continuous"; int dtype ⟶ "continuous" when
`len(set(data)) > 9` else "ordinal"; anything else ⟶ "categorical". -/
def infer_data_family (data : Column) : String :=
  if data.dtype = DType.float then "continuous"
  else if data.dtype = DType.int then
    if data.values.dedup.length > 9 then "continuous" else "ordinal"
  else "categorical"

/-! ## encodings.py — `data_cmap` and friends -/

/-- An explicit palette handed to `data_cmap`: a dict or a list. -/
inductive Palette : Type
  | dict (entries : List (ℚ × String))
  | list (colors : List String)
deriving DecidableEq, Repr

/-- The colormap values `data_cmap` can return: a colorbrewer
`Set3_n` qualitative map, matplotlib's `viridis` or `bwr`, or the
caller's own palette passed through unchanged. -/
inductive Cmap : Type
  | set3 (n : ℕ)
  | viridis
  | bwr
  | custom (p : Palette)
deriving DecidableEq, Repr

/-- The f-string text before `data.name` in `data_cmap`'s error. -/
def tooManyCategoriesPre : String :=
  "It appears you have >12 categories for the key "

/-- The f-string text after `data.name` in `data_cmap`'s error. -/
def tooManyCategoriesPost : String :=
  ". Because it's difficult to discern >12 categories, " ++
  "and because colorbrewer doesn't have a qualitative colormap " ++
  "with greater than 12 categories, " ++
  "nxviz does not support plotting with >12 categories. " ++
  "Please provide your own palette."

/-- `data_cmap` from `nxviz/encodings.py`.  For a categorical column with
no palette, `num_categories = max(len(data.unique()), 3)`; more than 12
raises a `ValueError` naming `data.name`, otherwise the colormap is
`Set3_{num_categories}`.  An explicit palette is passed through.  Ordinal
and continuous columns get `viridis`, divergent ones `bwr`.  Returns both
the colormap and the inferred data family. -/
def data_cmap (data : Column) (palette : Option Palette) :
    Except String (Cmap × String) :=
  let data_family := infer_data_family data
  if data_family = "categorical" then
    match palette with
    | none =>
      let num_categories := max data.values.dedup.length 3
      if num_categories > 12 then
        .error (tooManyCategoriesPre ++ data.name ++ tooManyCategoriesPost)
      else .ok (Cmap.set3 num_categories, data_family)
    | some p => .ok (Cmap.custom p, data_family)
  else if data_family = "ordinal" then .ok (Cmap.viridis, data_family)
  else if data_family = "continuous" then .ok (Cmap.viridis, data_family)
  else .ok (Cmap.bwr, data_family)

/-- Minimum of a list, pandas-style (`Series.min`); 0 on empties. -/
def listMin : List ℚ → ℚ
  | [] => 0
  | x :: xs => xs.foldl min x

/-- Maximum of a list, pandas-style (`Series.max`); 0 on empties. -/
def listMax : List ℚ → ℚ
  | [] => 0
  | x :: xs => xs.foldl max x

/-- `matplotlib.colors.Normalize(vmin, vmax)(v) = (v - vmin)/(vmax - vmin)`. -/
def normalize (vmin vmax v : ℚ) : ℚ := (v - vmin) / (vmax - vmin)

/-- `data_transparency` from `nxviz/encodings.py`: normalize `data` by the
min/max of `ref_data`. -/
def data_transparency (data ref_data : List ℚ) : List ℚ :=
  data.map (normalize (listMin ref_data) (listMax ref_data))

/-! ## node and edge tables

A node table row is a node identifier together with its attribute
mapping; an edge table row is a `(source, target)` pair with attributes.
Row order is the (grouped/sorted) drawing order. -/

/-- A node table: rows in drawing order, each a node id with attributes. -/
abbrev NodeTable (α : Type) : Type := List (α × (String → ℚ))

/-- An edge table: rows `(source, target)` with attributes. -/
abbrev EdgeTable (α : Type) : Type := List ((α × α) × (String → ℚ))

/-- `transparency` from `nxviz/nodes.py`: with an `alpha_by` column,
normalize it against itself (or against explicit `alpha_bounds`);
with `alpha_by=None`, return `pd.Series([1.0] * len(nt))`. -/
def nodeTransparency {α : Type} (nt : NodeTable α) (alpha_by : Option String)
    (alpha_bounds : Option (ℚ × ℚ)) : List ℚ :=
  match alpha_by with
  | some key =>
    let col := nt.map (fun r => r.2 key)
    let ref_data := match alpha_bounds with
      | some b => [b.1, b.2]
      | none => col
    data_transparency col ref_data
  | none => List.replicate nt.length 1

/-- `transparency` from `nxviz/edges.py`: with an `alpha_by` column, apply
`alpha_func` to it; with `alpha_by=None`, return `pd.Series([1] * len(et))`. -/
def edgeTransparency {α : Type} (et : EdgeTable α) (alpha_by : Option String)
    (alpha_func : ℚ → ℚ) : List ℚ :=
  match alpha_by with
  | some key => et.map (fun r => alpha_func (r.2 key))
  | none => List.replicate et.length 1

/-! ## utils.py — `group_and_sort` and pandas `groupby` -/

/-- Lexicographic comparison of two rows' criteria-value lists, the order
`DataFrame.sort_values` sorts by. -/
def lexLe : List ℚ → List ℚ → Bool
  | [], _ => true
  | _ :: _, [] => false
  | x :: xs, y :: ys =>
    if x < y then true else if y < x then false else lexLe xs ys

/-- The sort criteria assembled by `group_and_sort` in `nxviz/utils.py`:
`group_by` first if present, then `sort_by` if present. -/
def sortCriteria (group_by sort_by : Option String) : List String :=
  group_by.toList ++ sort_by.toList

/-- Row comparison by the given criteria columns. -/
def rowLe {α : Type} (crit : List String) (a b : α × (String → ℚ)) : Bool :=
  lexLe (crit.map a.2) (crit.map b.2)

/-- `group_and_sort` from `nxviz/utils.py`: sort by `[group_by, sort_by]`
(whichever are present); with no criteria the table is returned unchanged. -/
def group_and_sort {α : Type} (nt : NodeTable α)
    (group_by sort_by : Option String) : NodeTable α :=
  match sortCriteria group_by sort_by with
  | [] => nt
  | crit => nt.mergeSort (rowLe crit)

/-- `sorted(column.unique())`: the distinct values of a column, ascending. -/
def sortedUnique (col : List ℚ) : List ℚ :=
  col.dedup.mergeSort (fun a b => decide (a ≤ b))

/-- `DataFrame.groupby(key)`: one block per distinct key value in ascending
key order, each block keeping its rows in table order. -/
def groupbyBlocks {α : Type} (key : String) (nt : NodeTable α) :
    List (ℚ × NodeTable α) :=
  (sortedUnique (nt.map (fun r => r.2 key))).map
    (fun g => (g, nt.filter (fun r => decide (r.2 key = g))))

/-! ## layouts.py -/

/-- A Position Map: node id to cartesian coordinate, in insertion order
(Python dicts preserve insertion order). -/
abbrev PosMap (α : Type) : Type := List (α × (ℝ × ℝ))

/-- A Python `for` loop building a list, aborted by the first raised
exception. -/
def exceptMapM {β γ : Type} (f : β → Except String γ) :
    List β → Except String (List γ)
  | [] => .ok []
  | b :: bs =>
    match f b with
    | .error e => .error e
    | .ok c => (exceptMapM f bs).map (fun cs => c :: cs)

end Nxviz

noncomputable section

namespace Nxviz

variable {α : Type} [DecidableEq α]

/-- `circos` from `nxviz/layouts.py`: group-and-sort the table, auto-compute
the radius via `circos_radius(len(nodes))` when none is given, then place
every node at `to_cartesian(radius, item_theta(nodes, node))` — iterating
per group when `group_by` is given, else over the table directly. -/
def circos (nt : NodeTable α) (group_by sort_by : Option String)
    (radius : Option ℝ) : Except String (PosMap α) :=
  let nt1 := group_and_sort nt group_by sort_by
  let nodes := nt1.map Prod.fst
  let r := match radius with
    | some r => r
    | none => circos_radius nodes.length 1
  let order := match group_by with
    | some g => (((groupbyBlocks g nt1).map Prod.snd).flatten).map Prod.fst
    | none => nodes
  exceptMapM
    (fun node => (item_theta nodes node).map (fun θ => (node, to_cartesian r θ)))
    order

/-- The hive layout's error text for more than 3 groups (`nxviz/layouts.py`). -/
def tooManyGroupsMsg (group_by : String) : String :=
  "group_by " ++ group_by ++ " is associated with more than 3 groups. " ++
  "Hive plots can only handle at most 3 groups at a time."

/-- `hive` from `nxviz/layouts.py`: group-and-sort, reject more than 3
distinct groups, then place the `i`-th node of each group at radius
`(inner_radius + i) * 2` and angle `item_theta(groups, grp) + rotation`. -/
def hive (nt : NodeTable α) (group_by : String) (sort_by : Option String)
    (inner_radius : ℝ) (rotation : ℝ) : Except String (PosMap α) :=
  let nt1 := group_and_sort nt (some group_by) sort_by
  let groups := sortedUnique (nt1.map (fun r => r.2 group_by))
  if groups.length > 3 then .error (tooManyGroupsMsg group_by)
  else
    (exceptMapM
      (fun blk => exceptMapM
        (fun ir => (item_theta groups blk.1).map (fun θ =>
          (ir.2.1, to_cartesian ((inner_radius + ir.1) * 2) (θ + rotation))))
        blk.2.enum)
      (groupbyBlocks group_by nt1)).map List.flatten

/-- `parallel` from `nxviz/layouts.py`: enumerate the groups of the raw
table; optionally sort inside each group by `sort_by`; node `y` of group
`x` goes to `(x * 4, y)`. -/
def parallel (nt : NodeTable α) (group_by : String) (sort_by : Option String) :
    PosMap α :=
  ((groupbyBlocks group_by nt).enum.map (fun xb =>
    let data := match sort_by with
      | some s => xb.2.2.mergeSort (rowLe [s])
      | none => xb.2.2
    data.enum.map (fun yr => (yr.2.1, ((xb.1 * 4 : ℝ), (yr.1 : ℝ)))))).flatten

/-- `arc` from `nxviz/layouts.py`: group-and-sort, then node `x` goes to
`(x * 2, 0)`. -/
def arc (nt : NodeTable α) (group_by sort_by : Option String) : PosMap α :=
  let nt1 := group_and_sort nt group_by sort_by
  nt1.enum.map (fun ir => (ir.2.1, ((ir.1 * 2 : ℝ), (0 : ℝ))))

/-- `geo` from `nxviz/layouts.py`: a passthrough reading the longitude and
latitude attribute columns; no grouping, no sorting. -/
def geo (nt : NodeTable α) (longitude latitude : String) : PosMap α :=
  nt.map (fun r => (r.1, ((r.2 longitude : ℝ), (r.2 latitude : ℝ))))

/-- `matrix` from `nxviz/layouts.py`: group-and-sort, then node `i` goes to
`((i + 1) * 2, 0)`, with the coordinates swapped when `axis = "y"`. -/
def matrix (nt : NodeTable α) (group_by sort_by : Option String)
    (axis : String) : PosMap α :=
  let nt1 := group_and_sort nt group_by sort_by
  nt1.enum.map (fun ir =>
    (ir.2.1,
      if axis = "y" then ((0 : ℝ), ((ir.1 + 1) * 2 : ℝ))
      else (((ir.1 + 1) * 2 : ℝ), (0 : ℝ))))

/-! ## lines.py / edges.py — the hive edge generator -/

/-- `numpy.allclose(d, 0)` tolerance (`atol = 1e-8`; `rtol` contributes 0). -/
def atol : ℝ := 1 / 10 ^ 8

/-- `itertools.product(starts, ends)` over the primary and cloned angles of
the source and target: the four candidate `(start, end)` pairs, in
iteration order. -/
def hiveCandidates (sθ scθ eθ ecθ : ℝ) : List (ℝ × ℝ) :=
  [(sθ, eθ), (sθ, ecθ), (scθ, eθ), (scθ, ecθ)]

/-- One iteration of the candidate loop in `lines.hive`: correct the pair
with `correct_hive_angles`; if the separation is not `allclose` to 0,
compute `angle = to_radians(abs(min(end - start, start - end)))` and take
the candidate when `angle` beats the best so far (`inf` initially, strict
`<`, so the first minimizer is kept). -/
def hiveStep (sr er : ℝ) (state : Option (ℝ × ((ℝ × ℝ) × (ℝ × ℝ))))
    (c : ℝ × ℝ) : Option (ℝ × ((ℝ × ℝ) × (ℝ × ℝ))) :=
  let se := correct_hive_angles c.1 c.2
  let s := se.1
  let e := se.2
  if ¬ |e - s - 0| ≤ atol then
    let angle := to_radians |min (e - s) (s - e)|
    match state with
    | none => some (|angle|, ((sr, s), (er, e)))
    | some st =>
      if angle < st.1 then some (|angle|, ((sr, s), (er, e))) else state
  else state

/-- The `smallest_pair` selected by `lines.hive` for one edge: `none` when
no candidate pair survives (the edge is skipped). -/
def hiveSelect (sr er : ℝ) (cands : List (ℝ × ℝ)) :
    Option ((ℝ × ℝ) × (ℝ × ℝ)) :=
  (cands.foldl (hiveStep sr er) none).map Prod.snd

/-- The control points `lines.hive` emits for one edge (with
`curves=True`): `none` when `smallest_pair is None` (the `continue`
branch — the edge is dropped, no error).  After selection an `end_theta`
`allclose` to 0 is replaced by `2π`; the curve runs from the start point
through two intermediate points at the mean angle to the end point. -/
def hiveEdgeVerts (sr er sθ scθ eθ ecθ : ℝ) : Option (List (ℝ × ℝ)) :=
  match hiveSelect sr er (hiveCandidates sθ scθ eθ ecθ) with
  | none => none
  | some p =>
    let start_radius := p.1.1
    let start_theta := p.1.2
    let end_radius := p.2.1
    let end_theta := if |p.2.2 - 0| ≤ atol then 2 * π else p.2.2
    let startpt := to_cartesian start_radius start_theta
    let endpt := to_cartesian end_radius end_theta
    let middle_theta := (start_theta + end_theta) / 2
    let middle1 := to_cartesian start_radius middle_theta
    let middle2 := to_cartesian end_radius middle_theta
    some [startpt, middle1, middle2, endpt]

/-- Euclidean norm of a 2-D point. -/
def norm2 (p : ℝ × ℝ) : ℝ := Real.sqrt (p.1 ^ 2 + p.2 ^ 2)

/-- The angle `item_theta` assigns on success. -/
def thetaOf (nodelist : List α) (node : α) : ℝ :=
  (nodelist.indexOf node : ℕ) * 2 * π / nodelist.length

/-! ## Spec-side definitions

The following definitions are written from the specification's wording
(not from the source) and are compared against the embedded source
functions in the refinement theorems below. -/

/-- Spec rule 1: "if `start > π` and `end == 0`, set `end = 2π`". -/
def specHiveRule1 (p : ℝ × ℝ) : ℝ × ℝ :=
  if p.1 > π ∧ p.2 = 0 then (p.1, 2 * π) else p

/-- Spec rule 2: "if `start < π` and `end == 0`, swap `start` and `end`". -/
def specHiveRule2 (p : ℝ × ℝ) : ℝ × ℝ :=
  if p.1 < π ∧ p.2 = 0 then (p.2, p.1) else p

/-- Spec rule 3: "if `end < π` and `start == 2π`, set `start = 0`". -/
def specHiveRule3 (p : ℝ × ℝ) : ℝ × ℝ :=
  if p.2 < π ∧ p.1 = 2 * π then ((0 : ℝ), p.2) else p

/-- Spec rule 4: "if `end > π` and `start == 0`, set `start = 2π`". -/
def specHiveRule4 (p : ℝ × ℝ) : ℝ × ℝ :=
  if p.2 > π ∧ p.1 = 0 then (2 * π, p.2) else p

/-- The spec's reading of `correct_hive_angles`: the four rules applied in
order, each seeing the effects of the earlier ones. -/
def specCorrectHiveAngles (s e : ℝ) : ℝ × ℝ :=
  specHiveRule4 (specHiveRule3 (specHiveRule2 (specHiveRule1 (s, e))))

/-- Angular separation of a corrected `(start, end)` pair. -/
def sep (p : ℝ × ℝ) : ℝ := |p.2 - p.1|

/-- The spec's candidate selection for a hive edge: among the (already
corrected) candidate pairs in iteration order, the one with the smallest
non-zero (beyond the `allclose` tolerance) angular separation, ties going
to the earliest candidate; `none` when no candidate has a non-zero
separation. -/
def specSmallestNonzero : List (ℝ × ℝ) → Option (ℝ × ℝ)
  | [] => none
  | c :: cs =>
    match specSmallestNonzero cs with
    | none => if atol < sep c then some c else none
    | some b => if atol < sep c ∧ sep c ≤ sep b then some c else some b

/-- The corrected angles of a candidate pair. -/
def chc (c : ℝ × ℝ) : ℝ × ℝ := correct_hive_angles c.1 c.2

/-- The loop state `(smallest_nonzero_angle, smallest_pair)` stored for a
corrected candidate `q` (the angle in the state is the degree-scaled
separation the source computes via `to_radians`). -/
def packState (sr er : ℝ) (q : ℝ × ℝ) : ℝ × ((ℝ × ℝ) × (ℝ × ℝ)) :=
  (sep q * π / 180, ((sr, q.1), (er, q.2)))

end Nxviz

end

namespace Nxviz

/-- The claim's classification rule, written from the claim: float columns
spanning a negative and a positive value are "divergent"; other float
columns "continuous"; integral columns with at most 9 distinct values
"ordinal", otherwise "continuous"; anything else "categorical". -/
def claimDataFamily (data : Column) : String :=
  if data.dtype = DType.float ∧
      (∃ v ∈ data.values, v < 0) ∧ (∃ v ∈ data.values, 0 < v) then "divergent"
  else if data.dtype = DType.float then "continuous"
  else if data.dtype = DType.int ∧ data.values.dedup.length ≤ 9 then "ordinal"
  else if data.dtype = DType.int then "continuous"
  else "categorical"

/-- The amended classification rule: float columns are always
"continuous" (never "divergent"); integral columns with at most 9
distinct values are "ordinal", otherwise "continuous"; anything else is
"categorical". -/
def amendedDataFamily (data : Column) : String :=
  if data.dtype = DType.float then "continuous"
  else if data.dtype = DType.int ∧ data.values.dedup.length ≤ 9 then "ordinal"
  else if data.dtype = DType.int then "continuous"
  else "categorical"

/-- A float column holding both a negative and a positive value. -/
def divergentishColumn : Column := ⟨"temperature", DType.float, [-1, 1]⟩

/-- A categorical column with 13 distinct values. -/
def thirteenCategories : Column :=
  ⟨"letters", DType.obj, [0, 1, 2, 3, 4, 5, 6, 7, 8, 9, 10, 11, 12]⟩

/-- An attribute mapping for example rows: every key reads 0. -/
def noAttrs : String → ℚ := fun _ => 0

/-- A two-node table (fewer than three nodes). -/
def twoNodeTable : NodeTable String := [("A", noAttrs), ("B", noAttrs)]

/-- The spec's end-to-end circular-layout example table: four nodes
`A, B, C, D`, no grouping. -/
def fourNodeTable : NodeTable String :=
  [("A", noAttrs), ("B", noAttrs), ("C", noAttrs), ("D", noAttrs)]

/-- Centroid of the positions of a position map. -/
noncomputable def centroid (pm : PosMap String) : ℝ × ℝ :=
  ((pm.map (fun kv => kv.2.1)).sum / pm.length,
   (pm.map (fun kv => kv.2.2)).sum / pm.length)

/-- A one-node table. -/
def oneNodeTable : NodeTable String := [("A", noAttrs)]

/-- A one-edge table. -/
def oneEdgeTable : EdgeTable String := [(("A", "B"), noAttrs)]

/-! ## Theorems -/

section Helpers

variable {α : Type} [DecidableEq α]

theorem exceptMapM_ok_of_forall {β γ : Type} (f : β → Except String γ)
    (g : β → γ) (l : List β) (h : ∀ b ∈ l, f b = .ok (g b)) :
    exceptMapM f l = .ok (l.map g) := by
  induction l with
  | nil => rfl
  | cons b bs ih =>
    have hb : f b = .ok (g b) := h b (List.mem_cons_self b bs)
    have hbs : exceptMapM f bs = .ok (bs.map g) :=
      ih (fun x hx => h x (List.mem_cons_of_mem b hx))
    simp [exceptMapM, hb, hbs, Except.map]

theorem item_theta_ok (nodes : List α) (node : α) (h : node ∈ nodes) :
    item_theta nodes node = .ok (thetaOf nodes node) := by
  unfold item_theta thetaOf
  rw [if_neg, if_neg]
  · simp [h]
  · intro hlen
    exact List.ne_nil_of_mem h (List.eq_nil_of_length_eq_zero hlen)

theorem group_and_sort_perm (nt : NodeTable α) (gb sb : Option String) :
    (group_and_sort nt gb sb).Perm nt := by
  unfold group_and_sort
  cases h : sortCriteria gb sb with
  | nil => exact List.Perm.refl nt
  | cons c cs => exact List.mergeSort_perm nt _

theorem sortedUnique_nodup (col : List ℚ) : (sortedUnique col).Nodup :=
  (List.mergeSort_perm col.dedup _).symm.nodup col.nodup_dedup

theorem mem_sortedUnique {v : ℚ} {col : List ℚ} :
    v ∈ sortedUnique col ↔ v ∈ col := by
  unfold sortedUnique
  rw [(List.mergeSort_perm col.dedup _).mem_iff, List.mem_dedup]

theorem sortedUnique_sorted (col : List ℚ) :
    (sortedUnique col).Sorted (· ≤ ·) := by
  have h := @List.sorted_mergeSort ℚ (fun a b : ℚ => decide (a ≤ b))
    (fun a b c h₁ h₂ => by
      simp only [decide_eq_true_eq] at h₁ h₂ ⊢
      exact le_trans h₁ h₂)
    (fun a b => by simpa using le_total a b)
    col.dedup
  exact List.Pairwise.imp (fun hab => by simpa using hab) h

theorem sortedUnique_congr {col₁ col₂ : List ℚ} (h : col₁.Perm col₂) :
    sortedUnique col₁ = sortedUnique col₂ := by
  refine List.eq_of_perm_of_sorted ?_ (sortedUnique_sorted col₁)
    (sortedUnique_sorted col₂)
  exact (List.mergeSort_perm col₁.dedup _).trans
    (h.dedup.trans (List.mergeSort_perm col₂.dedup _).symm)

theorem flatten_filter_perm {β : Type} (key : β → ℚ) :
    ∀ (gs : List ℚ) (rows : List β), gs.Nodup →
      (∀ r ∈ rows, key r ∈ gs) →
      ((gs.map (fun g => rows.filter (fun r => decide (key r = g)))).flatten).Perm
        rows := by
  intro gs
  induction gs with
  | nil =>
    intro rows _ hcov
    cases rows with
    | nil => simp
    | cons r rs => exact absurd (hcov r (List.mem_cons_self r rs)) (by simp)
  | cons g gs ih =>
    intro rows hnd hcov
    have hg : g ∉ gs := (List.nodup_cons.mp hnd).1
    have hnd' : gs.Nodup := (List.nodup_cons.mp hnd).2
    set rows' := rows.filter (fun r => !(decide (key r = g))) with hrows'
    have hswap : ∀ g' ∈ gs,
        rows.filter (fun r => decide (key r = g')) =
          rows'.filter (fun r => decide (key r = g')) := by
      intro g' hg'
      rw [hrows', List.filter_filter]
      refine (List.filter_congr ?_).symm
      intro r _
      by_cases hk : key r = g'
      · have hne : ¬ (g' = g) := fun hgg => hg (hgg ▸ hg')
        simp [hk, hne]
      · simp [hk]
    have hmapeq :
        gs.map (fun g' => rows.filter (fun r => decide (key r = g'))) =
          gs.map (fun g' => rows'.filter (fun r => decide (key r = g'))) :=
      List.map_congr_left hswap
    have hcov' : ∀ r ∈ rows', key r ∈ gs := by
      intro r hr
      rw [hrows', List.mem_filter] at hr
      have h1 := hcov r hr.1
      have h2 : ¬ (key r = g) := by
        intro hkg
        simp [hkg] at hr
      rcases List.mem_cons.mp h1 with h | h
      · exact absurd h h2
      · exact h
    have ihp := ih rows' hnd' hcov'
    have heq : ((g :: gs).map (fun g' =>
            rows.filter (fun r => decide (key r = g')))).flatten =
        rows.filter (fun r => decide (key r = g)) ++
          (gs.map (fun g' =>
            rows'.filter (fun r => decide (key r = g')))).flatten := by
      rw [List.map_cons, List.flatten_cons, hmapeq]
    rw [heq]
    exact (List.Perm.append_left _ ihp).trans (List.filter_append_perm _ rows)

theorem flatten_perm_of_forall₂ {γ : Type} {L₁ L₂ : List (List γ)}
    (h : List.Forall₂ List.Perm L₁ L₂) : L₁.flatten.Perm L₂.flatten := by
  induction h with
  | nil => simp
  | cons hp _ ih => simpa using hp.append ih

theorem map_fst_enum_build {γ δ ε : Type} (l : List (γ × δ))
    (f : ℕ × (γ × δ) → ε) :
    ((l.enum.map (fun ir => (ir.2.1, f ir))).map Prod.fst) =
      l.map Prod.fst := by
  rw [List.map_map]
  have h1 : (Prod.fst ∘ fun ir : ℕ × (γ × δ) => (ir.2.1, f ir)) =
      (Prod.fst ∘ Prod.snd) := rfl
  rw [h1, ← List.map_map, List.enum_map_snd]

/-- The flattened groupby iteration of a table is a permutation of the
table itself. -/
theorem groupbyBlocks_flatten_perm (key : String) (nt : NodeTable α) :
    (((groupbyBlocks key nt).map Prod.snd).flatten).Perm nt := by
  unfold groupbyBlocks
  rw [List.map_map]
  have h1 : (Prod.snd ∘ fun g =>
      ((g, nt.filter (fun r => decide (r.2 key = g))) : ℚ × NodeTable α)) =
      fun g => nt.filter (fun r => decide (r.2 key = g)) := rfl
  rw [h1]
  refine flatten_filter_perm (fun r => r.2 key) _ nt
    (sortedUnique_nodup _) ?_
  intro r hr
  exact mem_sortedUnique.mpr (List.mem_map_of_mem (fun r => r.2 key) hr)

/-- Evaluation shape of the circos layout: it always succeeds, its keys
are a permutation of the table's node ids, and every position is
`to_cartesian` of the realized radius and the node's `item_theta` angle. -/
theorem circos_eval (nt : NodeTable α) (gb sb : Option String)
    (radius : Option ℝ) :
    ∃ order : List α,
      order.Perm (nt.map Prod.fst) ∧
      circos nt gb sb radius = .ok (order.map (fun node =>
        (node, to_cartesian (radius.getD (circos_radius nt.length 1))
          (thetaOf ((group_and_sort nt gb sb).map Prod.fst) node)))) := by
  cases gb with
  | none =>
    have hperm := group_and_sort_perm nt none sb
    have hlen : ((group_and_sort nt none sb).map Prod.fst).length = nt.length := by
      rw [List.length_map, hperm.length_eq]
    refine ⟨(group_and_sort nt none sb).map Prod.fst, hperm.map _, ?_⟩
    have hmapm := exceptMapM_ok_of_forall
      (fun node => (item_theta ((group_and_sort nt none sb).map Prod.fst) node).map
        (fun θ => (node, to_cartesian (radius.getD (circos_radius nt.length 1)) θ)))
      (fun node => (node, to_cartesian (radius.getD (circos_radius nt.length 1))
        (thetaOf ((group_and_sort nt none sb).map Prod.fst) node)))
      ((group_and_sort nt none sb).map Prod.fst)
      (fun node h => by dsimp only; rw [item_theta_ok _ _ h]; rfl)
    cases radius with
    | none =>
      simp only [Option.getD_none] at hmapm ⊢
      simp only [circos]
      rw [hlen]
      exact hmapm
    | some rr =>
      simp only [Option.getD_some] at hmapm ⊢
      simp only [circos]
      exact hmapm
  | some g =>
    have hperm := group_and_sort_perm nt (some g) sb
    have hlen : ((group_and_sort nt (some g) sb).map Prod.fst).length = nt.length := by
      rw [List.length_map, hperm.length_eq]
    have hfp : ((((groupbyBlocks g (group_and_sort nt (some g) sb)).map
        Prod.snd).flatten).map Prod.fst).Perm
        ((group_and_sort nt (some g) sb).map Prod.fst) :=
      (groupbyBlocks_flatten_perm g _).map Prod.fst
    refine ⟨_, hfp.trans (hperm.map _), ?_⟩
    have hmapm := exceptMapM_ok_of_forall
      (fun node => (item_theta ((group_and_sort nt (some g) sb).map Prod.fst) node).map
        (fun θ => (node, to_cartesian (radius.getD (circos_radius nt.length 1)) θ)))
      (fun node => (node, to_cartesian (radius.getD (circos_radius nt.length 1))
        (thetaOf ((group_and_sort nt (some g) sb).map Prod.fst) node)))
      ((((groupbyBlocks g (group_and_sort nt (some g) sb)).map Prod.snd).flatten).map
        Prod.fst)
      (fun node h => by dsimp only; rw [item_theta_ok _ _ (hfp.mem_iff.mp h)]; rfl)
    cases radius with
    | none =>
      simp only [Option.getD_none] at hmapm ⊢
      simp only [circos]
      rw [hlen]
      exact hmapm
    | some rr =>
      simp only [Option.getD_some] at hmapm ⊢
      simp only [circos]
      exact hmapm

/-- Ungrouped circos evaluates to an explicit map over the sorted ids. -/
theorem circos_eval_nogroup (nt : NodeTable α) (sb : Option String)
    (radius : Option ℝ) :
    circos nt none sb radius =
      .ok (((group_and_sort nt none sb).map Prod.fst).map (fun node =>
        (node, to_cartesian (radius.getD (circos_radius nt.length 1))
          (thetaOf ((group_and_sort nt none sb).map Prod.fst) node)))) := by
  have hperm := group_and_sort_perm nt none sb
  have hlen : ((group_and_sort nt none sb).map Prod.fst).length = nt.length := by
    rw [List.length_map, hperm.length_eq]
  have hmapm := exceptMapM_ok_of_forall
    (fun node => (item_theta ((group_and_sort nt none sb).map Prod.fst) node).map
      (fun θ => (node, to_cartesian (radius.getD (circos_radius nt.length 1)) θ)))
    (fun node => (node, to_cartesian (radius.getD (circos_radius nt.length 1))
      (thetaOf ((group_and_sort nt none sb).map Prod.fst) node)))
    ((group_and_sort nt none sb).map Prod.fst)
    (fun node h => by dsimp only; rw [item_theta_ok _ _ h]; rfl)
  cases radius with
  | none =>
    simp only [Option.getD_none] at hmapm ⊢
    simp only [circos]
    rw [hlen]
    exact hmapm
  | some rr =>
    simp only [Option.getD_some] at hmapm ⊢
    simp only [circos]
    exact hmapm

theorem to_proper_radians_id {θ : ℝ} (h₁ : -π ≤ θ) (h₂ : θ ≤ π) :
    to_proper_radians θ = θ := by
  unfold to_proper_radians
  rw [if_neg]
  push_neg
  exact ⟨h₂, h₁⟩

theorem to_proper_radians_three_pi_div_two :
    to_proper_radians (3 * π / 2) = π / 2 := by
  have hπ := Real.pi_pos
  have hdiv : 3 * π / 2 / π = 3 / 2 := by
    field_simp
    ring
  have hfloor : ⌊(3 : ℝ) / 2⌋ = 1 := by
    rw [Int.floor_eq_iff]
    norm_num
  unfold to_proper_radians pymod
  rw [if_pos (Or.inl (by linarith)), hdiv, hfloor]
  push_cast
  ring

theorem to_cartesian_zero (θ : ℝ) : to_cartesian 0 θ = (0, 0) := by
  unfold to_cartesian
  simp

theorem norm2_to_cartesian (r θ : ℝ) (hr : 0 ≤ r) :
    norm2 (to_cartesian r θ) = r := by
  unfold norm2 to_cartesian
  dsimp only
  have hs : (r * Real.cos (to_proper_radians θ)) ^ 2 +
      (r * Real.sin (to_proper_radians θ)) ^ 2 = r ^ 2 := by
    have h := Real.sin_sq_add_cos_sq (to_proper_radians θ)
    nlinarith [h]
  rw [hs, Real.sqrt_sq hr]

theorem circos_radius_pos (n : ℕ) (hn : 3 ≤ n) : 0 < circos_radius n 1 := by
  unfold circos_radius
  have hπ := Real.pi_pos
  have hnr : (3 : ℝ) ≤ (n : ℝ) := by exact_mod_cast hn
  have hn0 : (0 : ℝ) < (n : ℝ) := by linarith
  have hA0 : 0 < 2 * π / (n : ℝ) := by positivity
  have hAπ : 2 * π / (n : ℝ) < π := by
    rw [div_lt_iff hn0]
    nlinarith
  have hsA : 0 < Real.sin (2 * π / (n : ℝ)) :=
    Real.sin_pos_of_pos_of_lt_pi hA0 hAπ
  have hsB : 0 < Real.sin ((π - 2 * π / (n : ℝ)) / 2) :=
    Real.sin_pos_of_pos_of_lt_pi (by linarith) (by linarith)
  have hnum : 0 < 2 * (1 : ℝ) * Real.sin ((π - 2 * π / (n : ℝ)) / 2) := by
    nlinarith
  exact div_pos hnum hsA

end Helpers

/-- C2 counterexample: on a float column holding both a negative and a
positive value, `infer_data_family` answers "continuous", not the
"divergent" the claim requires. -/
theorem infer_data_family_divergent_counterexample :
    infer_data_family divergentishColumn = "continuous" ∧
    claimDataFamily divergentishColumn = "divergent" ∧
    infer_data_family divergentishColumn ≠ "divergent" := by
  refine ⟨rfl, ?_, by decide⟩
  decide

/-- C2 (amended): `infer_data_family` classifies float columns as
"continuous" unconditionally (never "divergent"); integral columns with
at most 9 distinct values as "ordinal", other integral columns as
"continuous"; and everything else as "categorical". -/
theorem infer_data_family_matches_amended (data : Column) :
    infer_data_family data = amendedDataFamily data := by
  unfold infer_data_family amendedDataFamily
  cases h : data.dtype
  · simp [h]
  · rcases le_or_lt data.values.dedup.length 9 with h9 | h9
    · simp [h, h9, Nat.not_lt.mpr h9]
    · simp [h, h9, Nat.not_le.mpr h9]
  · simp [h]

/-- C7: for a categorical column, automatic color assignment with more
than 12 distinct values and no palette fails with an error naming the
column; an explicit palette always succeeds, bypassing the cap; at most
12 distinct values succeed without a palette. -/
theorem data_cmap_categorical_cap (c : Column) (p : Palette)
    (hdt : c.dtype = DType.obj) :
    (12 < c.values.dedup.length →
      data_cmap c none =
        .error (tooManyCategoriesPre ++ c.name ++ tooManyCategoriesPost)) ∧
    data_cmap c (some p) = .ok (Cmap.custom p, "categorical") ∧
    (c.values.dedup.length ≤ 12 →
      data_cmap c none =
        .ok (Cmap.set3 (max c.values.dedup.length 3), "categorical")) := by
  have hfam : infer_data_family c = "categorical" := by
    unfold infer_data_family
    rw [hdt]
    simp
  refine ⟨fun h13 => ?_, ?_, fun hle => ?_⟩
  · have hmax : max c.values.dedup.length 3 > 12 :=
      lt_of_lt_of_le h13 (le_max_left _ _)
    simp [data_cmap, hfam, hmax]
  · simp [data_cmap, hfam]
  · have hmax : ¬ max c.values.dedup.length 3 > 12 :=
      not_lt.mpr (max_le hle (by norm_num))
    simp [data_cmap, hfam, hmax]

/-- C7 witness: a concrete categorical column with 13 distinct values. -/
theorem data_cmap_categorical_cap_witness :
    thirteenCategories.dtype = DType.obj ∧
    ((12 < thirteenCategories.values.dedup.length →
      data_cmap thirteenCategories none =
        .error (tooManyCategoriesPre ++ thirteenCategories.name ++
          tooManyCategoriesPost)) ∧
    data_cmap thirteenCategories (some (Palette.list ["red"])) =
      .ok (Cmap.custom (Palette.list ["red"]), "categorical") ∧
    (thirteenCategories.values.dedup.length ≤ 12 →
      data_cmap thirteenCategories none =
        .ok (Cmap.set3 (max thirteenCategories.values.dedup.length 3),
          "categorical"))) :=
  ⟨rfl, data_cmap_categorical_cap thirteenCategories (Palette.list ["red"]) rfl⟩

/-- C8 counterexample: with no `alpha_by` column the node transparency
series is the constant 1.0 — fully opaque, not strictly less than 1. -/
theorem transparency_default_counterexample :
    nodeTransparency twoNodeTable none none = [1, 1] ∧
    edgeTransparency oneEdgeTable none (fun q => q) = [1] ∧
    ¬ ((1 : ℚ) < 1) := by
  exact ⟨rfl, rfl, by norm_num⟩

/-- C8 (amended): with `alpha_by` absent, both the node and the edge
transparency series are the constant 1.0 (fully opaque). -/
theorem transparency_default_is_opaque {α : Type} (nt : NodeTable α)
    (bounds : Option (ℚ × ℚ)) (et : EdgeTable α) (f : ℚ → ℚ) :
    nodeTransparency nt none bounds = List.replicate nt.length 1 ∧
    edgeTransparency et none f = List.replicate et.length 1 := by
  exact ⟨rfl, rfl⟩

/-- C6: `correct_hive_angles` applies exactly the four spec rules in
order, later rules seeing the effects of earlier ones, and on the spec's
two concrete examples returns `(3.5, 2π)` and `(0.0, 1.0)`. -/
theorem correct_hive_angles_rules :
    (∀ s e : ℝ, correct_hive_angles s e = specCorrectHiveAngles s e) ∧
    correct_hive_angles 3.5 0 = (3.5, 2 * π) ∧
    correct_hive_angles 1 0 = (0, 1) := by
  have hπ := Real.pi_pos
  have h315 := Real.pi_lt_315
  have h3 := Real.pi_gt_three
  refine ⟨fun s e => rfl, ?_, ?_⟩
  · have c1 : π < 7 / 2 := by linarith
    have c2 : ¬ ((7 : ℝ) / 2 < π) := by push_neg; linarith
    have c3 : ¬ (2 * π < π) := by push_neg; linarith
    have c4 : ¬ (2 * π = 0) := by positivity
    have c5 : ¬ ((7 : ℝ) / 2 = 2 * π) := by intro h; linarith
    unfold correct_hive_angles
    norm_num [c1, c2, c3, c4, c5]
  · have c1 : ¬ (π < 1) := by push_neg; linarith
    have c2 : (1 : ℝ) < π := by linarith
    have c3 : ¬ ((0 : ℝ) = 2 * π) := by intro h; linarith
    unfold correct_hive_angles
    norm_num [c1, c2, c3]

/-- C1 (code bug): the polar/cartesian round-trip fails beyond `π`.
`to_proper_radians` reduces `3π/2` modulo `π` (not `2π`), so
`to_cartesian(1, 3π/2) = (0, 1)` — the antipode of the intended point —
and `to_polar` maps it back to `(1, π/2)`, which is neither `(1, 3π/2)`
nor `(1, |3π/2| mod 2π)`.  The repository's own property test
`test_convert_rt` asserts the round-trip on `θ ∈ [0, 2π]`. -/
theorem polcart_roundtrip_breaks_beyond_pi :
    to_cartesian 1 (3 * π / 2) = (0, 1) ∧
    to_polar 0 1 = (1, π / 2) ∧
    π / 2 ≠ 3 * π / 2 ∧
    pymod |3 * π / 2| (2 * π) = 3 * π / 2 := by
  have hπ := Real.pi_pos
  have hne := Real.pi_ne_zero
  have hcart : to_cartesian 1 (3 * π / 2) = (0, 1) := by
    have hcond : 3 * π / 2 > π := by linarith
    have hdiv : 3 * π / 2 / π = 3 / 2 := by field_simp; ring
    have hfloor : ⌊(3 : ℝ) / 2⌋ = 1 := by
      rw [Int.floor_eq_iff]
      norm_num
    have htpr : to_proper_radians (3 * π / 2) = π / 2 := by
      unfold to_proper_radians pymod
      rw [if_pos (Or.inl hcond), hdiv, hfloor]
      push_cast
      ring
    unfold to_cartesian
    rw [htpr]
    simp [Real.cos_pi_div_two, Real.sin_pi_div_two]
  refine ⟨hcart, ?_, by intro h; nlinarith, ?_⟩
  · unfold to_polar atan2
    have hI : Complex.mk 0 1 = Complex.I := rfl
    rw [hI, Complex.arg_I]
    norm_num
  · have habs : |3 * π / 2| = 3 * π / 2 := abs_of_pos (by linarith)
    have hdiv : 3 * π / 2 / (2 * π) = 3 / 4 := by field_simp; ring
    have hfloor : ⌊(3 : ℝ) / 4⌋ = 0 := by
      rw [Int.floor_eq_iff]
      norm_num
    unfold pymod
    rw [habs, hdiv, hfloor]
    push_cast
    ring

/-- C3 counterexample: the circular layout does not reject a table with
fewer than 3 nodes — on a two-node table it returns a position map (both
nodes at the origin, the auto radius degenerating to 0) instead of
failing with a domain error. -/
theorem circos_two_nodes_counterexample :
    circos twoNodeTable none none none =
      .ok [("A", (0, 0)), ("B", (0, 0))] := by
  have h := circos_eval_nogroup twoNodeTable none none
  have hsort : group_and_sort twoNodeTable none none = twoNodeTable := rfl
  have hr : circos_radius twoNodeTable.length 1 = 0 := by
    have hlen : twoNodeTable.length = 2 := rfl
    rw [hlen]
    simp only [circos_radius]
    have h2 : (π - 2 * π / ((2 : ℕ) : ℝ)) / 2 = 0 := by
      push_cast
      ring
    rw [h2, Real.sin_zero]
    ring
  rw [h, Option.getD_none, hr, hsort]
  have hmap : (twoNodeTable.map Prod.fst) = ["A", "B"] := rfl
  rw [hmap]
  simp only [List.map_cons, List.map_nil, to_cartesian_zero]

/-- C3 (amended): `circos_radius` performs no domain check — it returns
the sine-rule value `(2*node_radius)*sin(B)/sin(A)` with `A = 2π/n`,
`B = (π-A)/2` for every `n_nodes` — and the circular layout accepts node
tables with fewer than 3 nodes, returning a complete position map for
them rather than rejecting them. -/
theorem circos_radius_no_domain_check {α : Type} [DecidableEq α] (n : ℕ)
    (r : ℝ) (nt : NodeTable α) (hn : nt.length < 3)
    (h : (nt.map Prod.fst).Nodup) :
    circos_radius n r =
      2 * r * Real.sin ((π - 2 * π / n) / 2) / Real.sin (2 * π / n) ∧
    ∃ pm, circos nt none none none = .ok pm ∧
      pm.map Prod.fst = nt.map Prod.fst := by
  refine ⟨rfl, ?_⟩
  refine ⟨_, circos_eval_nogroup nt none none, ?_⟩
  have hsort : group_and_sort nt none none = nt := rfl
  rw [hsort, List.map_map]
  exact List.map_id _

/-- C3 witness: instantiated at a two-node table. -/
theorem circos_radius_no_domain_check_witness :
    (twoNodeTable.length < 3 ∧ (twoNodeTable.map Prod.fst).Nodup) ∧
    (circos_radius 2 1 =
      2 * 1 * Real.sin ((π - 2 * π / 2) / 2) / Real.sin (2 * π / 2) ∧
    ∃ pm, circos twoNodeTable none none none = .ok pm ∧
      pm.map Prod.fst = twoNodeTable.map Prod.fst) :=
  ⟨⟨by decide, by decide⟩,
    circos_radius_no_domain_check 2 1 twoNodeTable (by decide) (by decide)⟩

/-- C10: every position the circos layout returns lies exactly on the
circle of the layout's radius: with an explicit positive radius `r`
every value has Euclidean norm `r`, and with the auto-computed radius
(at least 3 nodes) every value has norm `circos_radius n 1 > 0` — even
for nodes whose nominal angle exceeds `π`. -/
theorem circos_positions_on_circle {α : Type} [DecidableEq α]
    (nt : NodeTable α) (gb sb : Option String) (r : ℝ) (pm pm2 : PosMap α)
    (hr : 0 < r) (hok : circos nt gb sb (some r) = .ok pm) :
    (∀ kv ∈ pm, norm2 kv.2 = r) ∧
    (3 ≤ nt.length → circos nt gb sb none = .ok pm2 →
      0 < circos_radius nt.length 1 ∧
      ∀ kv ∈ pm2, norm2 kv.2 = circos_radius nt.length 1) := by
  constructor
  · intro kv hkv
    obtain ⟨order, _, heq⟩ := circos_eval nt gb sb (some r)
    rw [hok] at heq
    have hpm : pm = order.map (fun node =>
        (node, to_cartesian r
          (thetaOf ((group_and_sort nt gb sb).map Prod.fst) node))) := by
      simpa using heq
    rw [hpm] at hkv
    obtain ⟨node, _, hkveq⟩ := List.mem_map.mp hkv
    rw [← hkveq]
    exact norm2_to_cartesian r _ hr.le
  · intro h3 hok2
    refine ⟨circos_radius_pos nt.length h3, ?_⟩
    intro kv hkv
    obtain ⟨order, _, heq⟩ := circos_eval nt gb sb none
    rw [hok2] at heq
    have hpm : pm2 = order.map (fun node =>
        (node, to_cartesian (circos_radius nt.length 1)
          (thetaOf ((group_and_sort nt gb sb).map Prod.fst) node))) := by
      simpa using heq
    rw [hpm] at hkv
    obtain ⟨node, _, hkveq⟩ := List.mem_map.mp hkv
    rw [← hkveq]
    exact norm2_to_cartesian _ _ (circos_radius_pos nt.length h3).le

/-- C10 witness: a one-node table with explicit radius 1. -/
theorem circos_positions_on_circle_witness :
    ((0 : ℝ) < 1 ∧
      circos oneNodeTable none none (some 1) = .ok [("A", (1, 0))]) ∧
    ((∀ kv ∈ [(("A" : String), ((1 : ℝ), (0 : ℝ)))], norm2 kv.2 = 1) ∧
      (3 ≤ oneNodeTable.length →
        circos oneNodeTable none none none = .ok [] →
        0 < circos_radius oneNodeTable.length 1 ∧
        ∀ kv ∈ ([] : PosMap String),
          norm2 kv.2 = circos_radius oneNodeTable.length 1)) := by
  have hπ := Real.pi_pos
  have hok : circos oneNodeTable none none (some 1) = .ok [("A", (1, 0))] := by
    have h := circos_eval_nogroup oneNodeTable none (some 1)
    have hsort : group_and_sort oneNodeTable none none = oneNodeTable := rfl
    rw [h, Option.getD_some, hsort]
    have hmap : (oneNodeTable.map Prod.fst) = ["A"] := rfl
    rw [hmap]
    have hθ : thetaOf ["A"] "A" = 0 := by
      unfold thetaOf
      norm_num
    simp only [List.map_cons, List.map_nil, hθ]
    have hc : to_cartesian 1 0 = (1, 0) := by
      unfold to_cartesian
      rw [to_proper_radians_id (by linarith) (by linarith)]
      simp
    rw [hc]
  exact ⟨⟨by norm_num, hok⟩,
    circos_positions_on_circle oneNodeTable none none 1 [("A", (1, 0))] []
      (by norm_num) hok⟩

/-- C4 (code bug): on the spec's four-node example the layout puts `D` at
`(0, √2)` — the same point as `B`, because `to_cartesian` folds the
nominal angle `3π/2` to `π/2` — so the centroid is `(0, √2/2)`, not the
`(0, 0)` the spec's example (and the repository's own `test_circos`
centroid assertion) requires. -/
theorem circos_four_node_example_failure :
    circos fourNodeTable none none none =
      .ok [("A", (Real.sqrt 2, 0)), ("B", (0, Real.sqrt 2)),
           ("C", (-Real.sqrt 2, 0)), ("D", (0, Real.sqrt 2))] ∧
    centroid [("A", (Real.sqrt 2, 0)), ("B", (0, Real.sqrt 2)),
           ("C", (-Real.sqrt 2, 0)), ("D", (0, Real.sqrt 2))] =
      (0, Real.sqrt 2 / 2) ∧
    Real.sqrt 2 / 2 ≠ 0 := by
  have hπ := Real.pi_pos
  have hs2 : (0 : ℝ) < Real.sqrt 2 := Real.sqrt_pos.mpr (by norm_num)
  refine ⟨?_, ?_, by positivity⟩
  · have h := circos_eval_nogroup fourNodeTable none none
    have hsort : group_and_sort fourNodeTable none none = fourNodeTable := rfl
    have hr : circos_radius fourNodeTable.length 1 = Real.sqrt 2 := by
      have hlen : fourNodeTable.length = 4 := rfl
      rw [hlen]
      simp only [circos_radius]
      have hB : (π - 2 * π / ((4 : ℕ) : ℝ)) / 2 = π / 4 := by
        push_cast
        ring
      have hA : 2 * π / ((4 : ℕ) : ℝ) = π / 2 := by
        push_cast
        ring
      rw [hB, hA, Real.sin_pi_div_four, Real.sin_pi_div_two]
      rw [div_one]
      ring
    rw [h, Option.getD_none, hr, hsort]
    have hmap : (fourNodeTable.map Prod.fst) = ["A", "B", "C", "D"] := rfl
    rw [hmap]
    have hθA : thetaOf ["A", "B", "C", "D"] "A" = 0 := by
      unfold thetaOf
      norm_num
    have hθB : thetaOf ["A", "B", "C", "D"] "B" = π / 2 := by
      unfold thetaOf
      have hidx : List.indexOf "B" ["A", "B", "C", "D"] = 1 := rfl
      have hlen4 : (["A", "B", "C", "D"] : List String).length = 4 := rfl
      rw [hidx, hlen4]
      push_cast
      ring
    have hθC : thetaOf ["A", "B", "C", "D"] "C" = π := by
      unfold thetaOf
      have hidx : List.indexOf "C" ["A", "B", "C", "D"] = 2 := rfl
      have hlen4 : (["A", "B", "C", "D"] : List String).length = 4 := rfl
      rw [hidx, hlen4]
      push_cast
      ring
    have hθD : thetaOf ["A", "B", "C", "D"] "D" = 3 * π / 2 := by
      unfold thetaOf
      have hidx : List.indexOf "D" ["A", "B", "C", "D"] = 3 := rfl
      have hlen4 : (["A", "B", "C", "D"] : List String).length = 4 := rfl
      rw [hidx, hlen4]
      push_cast
      ring
    have hcA : to_cartesian (Real.sqrt 2) 0 = (Real.sqrt 2, 0) := by
      unfold to_cartesian
      rw [to_proper_radians_id (by linarith) (by linarith)]
      simp
    have hcB : to_cartesian (Real.sqrt 2) (π / 2) = (0, Real.sqrt 2) := by
      unfold to_cartesian
      rw [to_proper_radians_id (by linarith) (by linarith)]
      simp [Real.cos_pi_div_two, Real.sin_pi_div_two]
    have hcC : to_cartesian (Real.sqrt 2) π = (-Real.sqrt 2, 0) := by
      unfold to_cartesian
      rw [to_proper_radians_id (by linarith) (le_refl π)]
      simp [Real.cos_pi, Real.sin_pi]
    have hcD : to_cartesian (Real.sqrt 2) (3 * π / 2) = (0, Real.sqrt 2) := by
      unfold to_cartesian
      rw [to_proper_radians_three_pi_div_two]
      simp [Real.cos_pi_div_two, Real.sin_pi_div_two]
    simp only [List.map_cons, List.map_nil, hθA, hθB, hθC, hθD,
      hcA, hcB, hcC, hcD]
  · unfold centroid
    simp only [List.map_cons, List.map_nil, List.sum_cons, List.sum_nil,
      List.length_cons, List.length_nil]
    norm_num
    ring

section Helpers2

variable {α : Type} [DecidableEq α]

theorem forall₂_perm_map {γ δ : Type} (l : List γ) (F1 F2 : γ → List δ)
    (h : ∀ x ∈ l, (F1 x).Perm (F2 x)) :
    List.Forall₂ List.Perm (l.map F1) (l.map F2) := by
  induction l with
  | nil => simp
  | cons x xs ih =>
    simp only [List.map_cons]
    exact List.Forall₂.cons (h x (List.mem_cons_self x xs))
      (ih (fun y hy => h y (List.mem_cons_of_mem x hy)))

theorem flatten_enum_keys_perm {γ : Type} (F : ℕ × γ → PosMap α)
    (K : γ → List α) (hF : ∀ p : ℕ × γ, ((F p).map Prod.fst).Perm (K p.2)) :
    ∀ (L : List γ) (n : ℕ),
      ((((List.enumFrom n L).map F).flatten.map Prod.fst)).Perm
        ((L.map K).flatten) := by
  intro L
  induction L with
  | nil => intro n; simp
  | cons x xs ih =>
    intro n
    simp only [List.enumFrom, List.map_cons, List.flatten_cons, List.map_append]
    exact (hF (n, x)).append (ih (n + 1))

theorem blocks_keys_flatten_eq (key : String) (nt : NodeTable α) :
    ((groupbyBlocks key nt).map (fun blk => blk.2.map Prod.fst)).flatten =
      (((groupbyBlocks key nt).map Prod.snd).flatten).map Prod.fst := by
  rw [List.map_flatten, List.map_map]
  rfl

theorem arc_keys (nt : NodeTable α) (gb sb : Option String) :
    ((arc nt gb sb).map Prod.fst).Perm (nt.map Prod.fst) := by
  simp only [arc]
  rw [map_fst_enum_build]
  exact (group_and_sort_perm nt gb sb).map _

theorem matrix_keys (nt : NodeTable α) (gb sb : Option String) (ax : String) :
    ((matrix nt gb sb ax).map Prod.fst).Perm (nt.map Prod.fst) := by
  simp only [matrix]
  rw [map_fst_enum_build]
  exact (group_and_sort_perm nt gb sb).map _

theorem geo_keys (nt : NodeTable α) (lon lat : String) :
    (geo nt lon lat).map Prod.fst = nt.map Prod.fst := by
  simp only [geo, List.map_map]
  rfl

theorem parallel_keys (nt : NodeTable α) (gkey : String) (sb : Option String) :
    ((parallel nt gkey sb).map Prod.fst).Perm (nt.map Prod.fst) := by
  simp only [parallel]
  have h1 := flatten_enum_keys_perm
    (fun xb : ℕ × (ℚ × NodeTable α) =>
      (match sb with
        | some s => xb.2.2.mergeSort (rowLe [s])
        | none => xb.2.2).enum.map
        (fun yr : ℕ × (α × (String → ℚ)) =>
          (yr.2.1, ((xb.1 * 4 : ℝ), (yr.1 : ℝ)))))
    (fun blk : ℚ × NodeTable α =>
      (match sb with
        | some s => blk.2.mergeSort (rowLe [s])
        | none => blk.2).map Prod.fst)
    (fun p => by
      dsimp only
      rw [map_fst_enum_build])
    (groupbyBlocks gkey nt) 0
  refine h1.trans ?_
  have h2 : List.Forall₂ List.Perm
      ((groupbyBlocks gkey nt).map (fun blk : ℚ × NodeTable α =>
        (match sb with
          | some s => blk.2.mergeSort (rowLe [s])
          | none => blk.2).map Prod.fst))
      ((groupbyBlocks gkey nt).map (fun blk => blk.2.map Prod.fst)) := by
    refine forall₂_perm_map _ _ _ ?_
    intro blk _
    cases sb with
    | none => exact List.Perm.refl _
    | some s => exact (List.mergeSort_perm blk.2 _).map _
  refine (flatten_perm_of_forall₂ h2).trans ?_
  rw [blocks_keys_flatten_eq]
  exact (groupbyBlocks_flatten_perm gkey nt).map _

/-- Successful evaluation shape of the hive layout when at most 3 groups
are present. -/
theorem hive_eval (nt : NodeTable α) (gkey : String) (sb : Option String)
    (inner rot : ℝ)
    (hg : (sortedUnique ((group_and_sort nt (some gkey) sb).map
      (fun r => r.2 gkey))).length ≤ 3) :
    hive nt gkey sb inner rot = .ok
      (((groupbyBlocks gkey (group_and_sort nt (some gkey) sb)).map (fun blk =>
        blk.2.enum.map (fun ir => (ir.2.1,
          to_cartesian ((inner + ir.1) * 2)
            (thetaOf (sortedUnique ((group_and_sort nt (some gkey) sb).map
              (fun r => r.2 gkey))) blk.1 + rot))))).flatten) := by
  simp only [hive]
  rw [if_neg (by omega)]
  have houter := exceptMapM_ok_of_forall
    (fun blk : ℚ × NodeTable α => exceptMapM
      (fun ir => (item_theta (sortedUnique ((group_and_sort nt (some gkey) sb).map
          (fun r => r.2 gkey))) blk.1).map (fun θ =>
        (ir.2.1, to_cartesian ((inner + ir.1) * 2) (θ + rot))))
      blk.2.enum)
    (fun blk : ℚ × NodeTable α =>
      blk.2.enum.map (fun ir => (ir.2.1,
        to_cartesian ((inner + ir.1) * 2)
          (thetaOf (sortedUnique ((group_and_sort nt (some gkey) sb).map
            (fun r => r.2 gkey))) blk.1 + rot))))
    (groupbyBlocks gkey (group_and_sort nt (some gkey) sb))
    ?_
  · rw [houter]
    rfl
  · intro blk hblk
    have hmem : blk.1 ∈ sortedUnique ((group_and_sort nt (some gkey) sb).map
        (fun r => r.2 gkey)) := by
      unfold groupbyBlocks at hblk
      obtain ⟨g, hgmem, hge⟩ := List.mem_map.mp hblk
      rw [← hge]
      exact hgmem
    dsimp only
    refine exceptMapM_ok_of_forall _ _ _ ?_
    intro ir _
    dsimp only
    rw [item_theta_ok _ _ hmem]
    rfl

theorem hive_keys (nt : NodeTable α) (gkey : String) (sb : Option String)
    (inner rot : ℝ)
    (hg : (sortedUnique ((group_and_sort nt (some gkey) sb).map
      (fun r => r.2 gkey))).length ≤ 3) :
    ∃ pm, hive nt gkey sb inner rot = .ok pm ∧
      (pm.map Prod.fst).Perm (nt.map Prod.fst) := by
  refine ⟨_, hive_eval nt gkey sb inner rot hg, ?_⟩
  rw [List.map_flatten, List.map_map]
  have h2 : (groupbyBlocks gkey (group_and_sort nt (some gkey) sb)).map
      (List.map Prod.fst ∘ fun blk : ℚ × NodeTable α =>
        blk.2.enum.map (fun ir => (ir.2.1,
          to_cartesian ((inner + ir.1) * 2)
            (thetaOf (sortedUnique ((group_and_sort nt (some gkey) sb).map
              (fun r => r.2 gkey))) blk.1 + rot)))) =
      (groupbyBlocks gkey (group_and_sort nt (some gkey) sb)).map
        (fun blk => blk.2.map Prod.fst) := by
    refine List.map_congr_left ?_
    intro blk _
    exact map_fst_enum_build _ _
  rw [h2, blocks_keys_flatten_eq]
  exact ((groupbyBlocks_flatten_perm gkey _).map _).trans
    ((group_and_sort_perm nt (some gkey) sb).map _)

end Helpers2

/-- C9: for every node table (distinct node ids) and every valid
grouping, each layout function returns a Position Map whose keys are
exactly the table's node ids (a permutation of them — every row assigned
exactly one position, no foreign keys); the radial-axis layout under its
3-group cap and the circular layout additionally return them inside a
successful (`ok`) result.  Values are pairs of reals by construction. -/
theorem layouts_position_map_complete {α : Type} [DecidableEq α]
    (nt : NodeTable α) (gb sb : Option String) (gkey lon lat ax : String)
    (radius : Option ℝ) (inner rot : ℝ)
    (h : (nt.map Prod.fst).Nodup) :
    ((arc nt gb sb).map Prod.fst).Perm (nt.map Prod.fst) ∧
    ((matrix nt gb sb ax).map Prod.fst).Perm (nt.map Prod.fst) ∧
    (geo nt lon lat).map Prod.fst = nt.map Prod.fst ∧
    ((parallel nt gkey sb).map Prod.fst).Perm (nt.map Prod.fst) ∧
    (∃ pm, circos nt gb sb radius = .ok pm ∧
      (pm.map Prod.fst).Perm (nt.map Prod.fst)) ∧
    ((sortedUnique ((group_and_sort nt (some gkey) sb).map
        (fun r => r.2 gkey))).length ≤ 3 →
      ∃ pm, hive nt gkey sb inner rot = .ok pm ∧
        (pm.map Prod.fst).Perm (nt.map Prod.fst)) := by
  refine ⟨arc_keys nt gb sb, matrix_keys nt gb sb ax, geo_keys nt lon lat,
    parallel_keys nt gkey sb, ?_, fun hg => hive_keys nt gkey sb inner rot hg⟩
  obtain ⟨order, hperm, heq⟩ := circos_eval nt gb sb radius
  refine ⟨_, heq, ?_⟩
  have hid : (order.map (fun node => (node,
      to_cartesian (radius.getD (circos_radius nt.length 1))
        (thetaOf ((group_and_sort nt gb sb).map Prod.fst) node)))).map
      Prod.fst = order := by
    rw [List.map_map]
    exact List.map_id _
  rw [hid]
  exact hperm

/-- C9 witness: instantiated at a concrete two-node table. -/
theorem layouts_position_map_complete_witness :
    (twoNodeTable.map Prod.fst).Nodup ∧
    (((arc twoNodeTable none none).map Prod.fst).Perm
        (twoNodeTable.map Prod.fst) ∧
      ((matrix twoNodeTable none none "x").map Prod.fst).Perm
        (twoNodeTable.map Prod.fst) ∧
      (geo twoNodeTable "longitude" "latitude").map Prod.fst =
        twoNodeTable.map Prod.fst ∧
      ((parallel twoNodeTable "group" none).map Prod.fst).Perm
        (twoNodeTable.map Prod.fst) ∧
      (∃ pm, circos twoNodeTable none none none = .ok pm ∧
        (pm.map Prod.fst).Perm (twoNodeTable.map Prod.fst)) ∧
      ((sortedUnique ((group_and_sort twoNodeTable (some "group") none).map
          (fun r => r.2 "group"))).length ≤ 3 →
        ∃ pm, hive twoNodeTable "group" none 8 0 = .ok pm ∧
          (pm.map Prod.fst).Perm (twoNodeTable.map Prod.fst))) :=
  ⟨by decide,
    layouts_position_map_complete twoNodeTable none none "group"
      "longitude" "latitude" "x" none 8 0 (by decide)⟩

section HiveSelectHelpers

theorem specHiveRule1_bound {p : ℝ × ℝ} (h1 : |p.1| ≤ 2 * π)
    (h2 : |p.2| ≤ 2 * π) :
    |(specHiveRule1 p).1| ≤ 2 * π ∧ |(specHiveRule1 p).2| ≤ 2 * π := by
  have hπ := Real.pi_pos
  unfold specHiveRule1
  split_ifs
  · refine ⟨h1, ?_⟩
    dsimp only
    rw [abs_of_pos (by linarith)]
  · exact ⟨h1, h2⟩

theorem specHiveRule2_bound {p : ℝ × ℝ} (h1 : |p.1| ≤ 2 * π)
    (h2 : |p.2| ≤ 2 * π) :
    |(specHiveRule2 p).1| ≤ 2 * π ∧ |(specHiveRule2 p).2| ≤ 2 * π := by
  unfold specHiveRule2
  split_ifs
  · exact ⟨h2, h1⟩
  · exact ⟨h1, h2⟩

theorem specHiveRule3_bound {p : ℝ × ℝ} (h1 : |p.1| ≤ 2 * π)
    (h2 : |p.2| ≤ 2 * π) :
    |(specHiveRule3 p).1| ≤ 2 * π ∧ |(specHiveRule3 p).2| ≤ 2 * π := by
  have hπ := Real.pi_pos
  unfold specHiveRule3
  split_ifs
  · refine ⟨?_, h2⟩
    dsimp only
    rw [abs_zero]
    linarith
  · exact ⟨h1, h2⟩

theorem specHiveRule4_bound {p : ℝ × ℝ} (h1 : |p.1| ≤ 2 * π)
    (h2 : |p.2| ≤ 2 * π) :
    |(specHiveRule4 p).1| ≤ 2 * π ∧ |(specHiveRule4 p).2| ≤ 2 * π := by
  have hπ := Real.pi_pos
  unfold specHiveRule4
  split_ifs
  · refine ⟨?_, h2⟩
    dsimp only
    rw [abs_of_pos (by linarith)]
  · exact ⟨h1, h2⟩

theorem chc_bound {c : ℝ × ℝ} (h1 : |c.1| ≤ 2 * π) (h2 : |c.2| ≤ 2 * π) :
    |(chc c).1| ≤ 2 * π ∧ |(chc c).2| ≤ 2 * π := by
  have hspec : chc c = specCorrectHiveAngles c.1 c.2 := rfl
  rw [hspec]
  unfold specCorrectHiveAngles
  have b1 := @specHiveRule1_bound (c.1, c.2) h1 h2
  have b2 := specHiveRule2_bound b1.1 b1.2
  have b3 := specHiveRule3_bound b2.1 b2.2
  exact specHiveRule4_bound b3.1 b3.2

theorem sep_chc_le_180 {c : ℝ × ℝ} (h1 : |c.1| ≤ 2 * π)
    (h2 : |c.2| ≤ 2 * π) : sep (chc c) ≤ 180 := by
  obtain ⟨ha, hb⟩ := chc_bound h1 h2
  have h315 := Real.pi_lt_315
  have habs : |(chc c).2 - (chc c).1| ≤ |(chc c).2| + |(chc c).1| :=
    abs_sub _ _
  unfold sep
  nlinarith

theorem abs_min_sub (x y : ℝ) : |min (x - y) (y - x)| = |x - y| := by
  rcases le_total x y with h | h
  · rw [min_eq_left (by linarith)]
  · rw [min_eq_right (by linarith), abs_sub_comm]

theorem to_radians_of_small {d : ℝ} (h0 : 0 ≤ d) (h180 : d ≤ 180) :
    to_radians d = d * π / 180 := by
  unfold to_radians to_proper_degrees
  rw [if_neg]
  push_neg
  exact ⟨h180, by linarith⟩

theorem scaled_lt_iff {a b : ℝ} : a * π / 180 < b * π / 180 ↔ a < b := by
  constructor
  · intro h
    have h' : a * π < b * π := by linarith
    exact (mul_lt_mul_right Real.pi_pos).mp h'
  · intro h
    have h' : a * π < b * π := (mul_lt_mul_right Real.pi_pos).mpr h
    linarith

theorem hiveStep_none_eq (sr er : ℝ) (c : ℝ × ℝ)
    (hb : sep (chc c) ≤ 180) :
    hiveStep sr er none c =
      if atol < sep (chc c) then some (packState sr er (chc c)) else none := by
  have hπ := Real.pi_pos
  have hsepnn : (0 : ℝ) ≤ sep (chc c) := abs_nonneg _
  have hangle : to_radians |min ((chc c).2 - (chc c).1) ((chc c).1 - (chc c).2)| =
      sep (chc c) * π / 180 := by
    rw [abs_min_sub]
    exact to_radians_of_small hsepnn hb
  have habs : |sep (chc c) * π / 180| = sep (chc c) * π / 180 := by
    rw [abs_of_nonneg]
    positivity
  have hcond : (¬ |(chc c).2 - (chc c).1 - 0| ≤ atol) ↔ atol < sep (chc c) := by
    rw [sub_zero]
    exact not_le
  unfold hiveStep
  rw [show correct_hive_angles c.1 c.2 = chc c from rfl]
  by_cases hz : atol < sep (chc c)
  · rw [if_pos (hcond.mpr hz), if_pos hz]
    dsimp only
    rw [hangle, habs]
    rfl
  · rw [if_neg (fun hcon => hz (hcond.mp hcon)), if_neg hz]

theorem hiveStep_some_eq (sr er : ℝ) (c q : ℝ × ℝ)
    (hb : sep (chc c) ≤ 180) :
    hiveStep sr er (some (packState sr er q)) c =
      if atol < sep (chc c) ∧ sep (chc c) < sep q then
        some (packState sr er (chc c))
      else some (packState sr er q) := by
  have hπ := Real.pi_pos
  have hsepnn : (0 : ℝ) ≤ sep (chc c) := abs_nonneg _
  have hangle : to_radians |min ((chc c).2 - (chc c).1) ((chc c).1 - (chc c).2)| =
      sep (chc c) * π / 180 := by
    rw [abs_min_sub]
    exact to_radians_of_small hsepnn hb
  have habs : |sep (chc c) * π / 180| = sep (chc c) * π / 180 := by
    rw [abs_of_nonneg]
    positivity
  have hcond : (¬ |(chc c).2 - (chc c).1 - 0| ≤ atol) ↔ atol < sep (chc c) := by
    rw [sub_zero]
    exact not_le
  unfold hiveStep
  rw [show correct_hive_angles c.1 c.2 = chc c from rfl]
  by_cases hz : atol < sep (chc c)
  · rw [if_pos (hcond.mpr hz)]
    dsimp only
    rw [hangle]
    by_cases hlt : sep (chc c) < sep q
    · rw [if_pos (show sep (chc c) * π / 180 < (packState sr er q).1 from
        scaled_lt_iff.mpr hlt), habs]
      rw [if_pos ⟨hz, hlt⟩]
      rfl
    · rw [if_neg (show ¬ sep (chc c) * π / 180 < (packState sr er q).1 from
        fun hcon => hlt (scaled_lt_iff.mp hcon))]
      rw [if_neg (fun hcon : atol < sep (chc c) ∧ sep (chc c) < sep q =>
        hlt hcon.2)]
  · rw [if_neg (fun hcon => hz (hcond.mp hcon))]
    rw [if_neg (fun hcon : atol < sep (chc c) ∧ sep (chc c) < sep q =>
      hz hcon.1)]

theorem specSmallestNonzero_cons (c : ℝ × ℝ) (cs : List (ℝ × ℝ)) :
    specSmallestNonzero (c :: cs) =
      match specSmallestNonzero cs with
      | none => if atol < sep c then some c else none
      | some b =>
        if atol < sep c ∧ sep c ≤ sep b then some c else some b := rfl

theorem specSmallestNonzero_eq_none_iff (l : List (ℝ × ℝ)) :
    specSmallestNonzero l = none ↔ ∀ c ∈ l, sep c ≤ atol := by
  induction l with
  | nil => simp [specSmallestNonzero]
  | cons c cs ih =>
    rw [specSmallestNonzero_cons]
    cases h : specSmallestNonzero cs with
    | none =>
      have hall := ih.mp h
      dsimp only
      constructor
      · intro hnone x hx
        rcases List.mem_cons.mp hx with hxc | hxcs
        · subst hxc
          by_contra hcon
          rw [if_pos (not_le.mp hcon)] at hnone
          exact absurd hnone (Option.some_ne_none _)
        · exact hall x hxcs
      · intro hf
        rw [if_neg (not_lt.mpr (hf c (List.mem_cons_self c cs)))]
    | some b =>
      dsimp only
      constructor
      · intro hnone
        split_ifs at hnone
      · intro hf
        have hthis := ih.mpr (fun x hx => hf x (List.mem_cons_of_mem c hx))
        rw [h] at hthis
        exact absurd hthis (Option.some_ne_none _)

theorem foldl_hiveStep_some (sr er : ℝ) (cs : List (ℝ × ℝ))
    (hbs : ∀ c ∈ cs, |c.1| ≤ 2 * π ∧ |c.2| ≤ 2 * π) :
    ∀ q : ℝ × ℝ,
      cs.foldl (hiveStep sr er) (some (packState sr er q)) =
        some (match specSmallestNonzero (cs.map chc) with
          | none => packState sr er q
          | some b =>
            if sep b < sep q then packState sr er b
            else packState sr er q) := by
  induction cs with
  | nil => intro q; rfl
  | cons c cs ih =>
    intro q
    have hc := hbs c (List.mem_cons_self c cs)
    have hcs := fun x hx => hbs x (List.mem_cons_of_mem c hx)
    have hsep180 := sep_chc_le_180 hc.1 hc.2
    have hmapcons : (c :: cs).map chc = chc c :: cs.map chc := rfl
    rw [List.foldl_cons, hiveStep_some_eq sr er c q hsep180, hmapcons,
      specSmallestNonzero_cons]
    by_cases hz : atol < sep (chc c)
    · by_cases hlt : sep (chc c) < sep q
      · rw [if_pos ⟨hz, hlt⟩, ih hcs (chc c)]
        cases hrest : specSmallestNonzero (cs.map chc) with
        | none =>
          dsimp only
          rw [if_pos hz]
          dsimp only
          rw [if_pos hlt]
        | some b =>
          dsimp only
          by_cases hcb : sep (chc c) ≤ sep b
          · rw [if_neg (not_lt.mpr hcb),
              if_pos (show atol < sep (chc c) ∧ sep (chc c) ≤ sep b from
                ⟨hz, hcb⟩)]
            dsimp only
            rw [if_pos hlt]
          · have hbc : sep b < sep (chc c) := not_le.mp hcb
            rw [if_pos hbc,
              if_neg (show ¬ (atol < sep (chc c) ∧ sep (chc c) ≤ sep b) from
                fun hcon => hcb hcon.2)]
            dsimp only
            rw [if_pos (lt_trans hbc hlt)]
      · have hqc : sep q ≤ sep (chc c) := not_lt.mp hlt
        rw [if_neg (fun hcon : atol < sep (chc c) ∧ sep (chc c) < sep q =>
          hlt hcon.2), ih hcs q]
        cases hrest : specSmallestNonzero (cs.map chc) with
        | none =>
          dsimp only
          rw [if_pos hz]
          dsimp only
          rw [if_neg (not_lt.mpr hqc)]
        | some b =>
          dsimp only
          by_cases hcb : sep (chc c) ≤ sep b
          · rw [if_neg (not_lt.mpr (le_trans hqc hcb)),
              if_pos (show atol < sep (chc c) ∧ sep (chc c) ≤ sep b from
                ⟨hz, hcb⟩)]
            dsimp only
            rw [if_neg (not_lt.mpr hqc)]
          · rw [if_neg (show ¬ (atol < sep (chc c) ∧ sep (chc c) ≤ sep b) from
              fun hcon => hcb hcon.2)]
    · rw [if_neg (fun hcon : atol < sep (chc c) ∧ sep (chc c) < sep q =>
        hz hcon.1), ih hcs q]
      cases hrest : specSmallestNonzero (cs.map chc) with
      | none =>
        dsimp only
        rw [if_neg hz]
      | some b =>
        dsimp only
        rw [if_neg (show ¬ (atol < sep (chc c) ∧ sep (chc c) ≤ sep b) from
          fun hcon => hz hcon.1)]

theorem foldl_hiveStep_none (sr er : ℝ) (cs : List (ℝ × ℝ))
    (hbs : ∀ c ∈ cs, |c.1| ≤ 2 * π ∧ |c.2| ≤ 2 * π) :
    cs.foldl (hiveStep sr er) none =
      (specSmallestNonzero (cs.map chc)).map (packState sr er) := by
  induction cs with
  | nil => rfl
  | cons c cs ih =>
    have hc := hbs c (List.mem_cons_self c cs)
    have hcs := fun x hx => hbs x (List.mem_cons_of_mem c hx)
    have hsep180 := sep_chc_le_180 hc.1 hc.2
    have hmapcons : (c :: cs).map chc = chc c :: cs.map chc := rfl
    rw [List.foldl_cons, hiveStep_none_eq sr er c hsep180, hmapcons,
      specSmallestNonzero_cons]
    by_cases hz : atol < sep (chc c)
    · rw [if_pos hz, foldl_hiveStep_some sr er cs hcs (chc c)]
      cases hrest : specSmallestNonzero (cs.map chc) with
      | none =>
        dsimp only
        rw [if_pos hz]
        rfl
      | some b =>
        dsimp only
        by_cases hcb : sep (chc c) ≤ sep b
        · rw [if_neg (not_lt.mpr hcb),
            if_pos (show atol < sep (chc c) ∧ sep (chc c) ≤ sep b from
              ⟨hz, hcb⟩)]
          rfl
        · rw [if_pos (not_le.mp hcb),
            if_neg (show ¬ (atol < sep (chc c) ∧ sep (chc c) ≤ sep b) from
              fun hcon => hcb hcon.2)]
          rfl
    · rw [if_neg hz, ih hcs]
      cases hrest : specSmallestNonzero (cs.map chc) with
      | none =>
        dsimp only
        rw [if_neg hz]
      | some b =>
        dsimp only
        rw [if_neg (show ¬ (atol < sep (chc c) ∧ sep (chc c) ≤ sep b) from
          fun hcon => hz hcon.1)]

end HiveSelectHelpers

/-- C5: for every hive edge (endpoint angles come from `to_polar`, hence
have magnitude at most `2π`), the loop in the edge generator selects
exactly the spec's candidate — among the four corrected
`{primary, cloned} × {source, target}` pairs, the one with the smallest
non-zero (beyond the `allclose` tolerance) angular separation, earliest
candidate winning ties — and it emits no curve (returning nothing rather
than erroring) exactly when every corrected candidate's separation is
within tolerance of zero. -/
theorem hive_edge_selection (sr er sθ scθ eθ ecθ : ℝ)
    (h1 : |sθ| ≤ 2 * π) (h2 : |scθ| ≤ 2 * π) (h3 : |eθ| ≤ 2 * π)
    (h4 : |ecθ| ≤ 2 * π) :
    hiveSelect sr er (hiveCandidates sθ scθ eθ ecθ) =
      (specSmallestNonzero ((hiveCandidates sθ scθ eθ ecθ).map chc)).map
        (fun p => ((sr, p.1), (er, p.2))) ∧
    (hiveEdgeVerts sr er sθ scθ eθ ecθ = none ↔
      ∀ c ∈ hiveCandidates sθ scθ eθ ecθ, sep (chc c) ≤ atol) := by
  have hbs : ∀ c ∈ hiveCandidates sθ scθ eθ ecθ,
      |c.1| ≤ 2 * π ∧ |c.2| ≤ 2 * π := by
    intro c hc
    simp only [hiveCandidates, List.mem_cons, List.not_mem_nil, or_false]
      at hc
    rcases hc with h | h | h | h <;> subst h
    · exact ⟨h1, h3⟩
    · exact ⟨h1, h4⟩
    · exact ⟨h2, h3⟩
    · exact ⟨h2, h4⟩
  have hfold := foldl_hiveStep_none sr er (hiveCandidates sθ scθ eθ ecθ) hbs
  have hsel : hiveSelect sr er (hiveCandidates sθ scθ eθ ecθ) =
      (specSmallestNonzero ((hiveCandidates sθ scθ eθ ecθ).map chc)).map
        (fun p => ((sr, p.1), (er, p.2))) := by
    unfold hiveSelect
    rw [hfold, Option.map_map]
    rfl
  refine ⟨hsel, ?_⟩
  have hnone : hiveEdgeVerts sr er sθ scθ eθ ecθ = none ↔
      hiveSelect sr er (hiveCandidates sθ scθ eθ ecθ) = none := by
    unfold hiveEdgeVerts
    cases hiveSelect sr er (hiveCandidates sθ scθ eθ ecθ) with
    | none => simp
    | some p => simp
  rw [hnone, hsel, Option.map_eq_none', specSmallestNonzero_eq_none_iff]
  constructor
  · intro hf c hc
    exact hf (chc c) (List.mem_map_of_mem chc hc)
  · intro hf cc hcc
    obtain ⟨c, hc, hce⟩ := List.mem_map.mp hcc
    rw [← hce]
    exact hf c hc

/-- C5 witness: four coincident endpoint angles — every candidate
separation is zero, so no curve is emitted. -/
theorem hive_edge_selection_witness :
    (|(0 : ℝ)| ≤ 2 * π) ∧
    (hiveSelect 1 1 (hiveCandidates 0 0 0 0) =
      (specSmallestNonzero ((hiveCandidates 0 0 0 0).map chc)).map
        (fun p => ((1, p.1), (1, p.2))) ∧
    (hiveEdgeVerts 1 1 0 0 0 0 = none ↔
      ∀ c ∈ hiveCandidates 0 0 0 0, sep (chc c) ≤ atol)) := by
  have h0 : |(0 : ℝ)| ≤ 2 * π := by
    rw [abs_zero]
    positivity
  exact ⟨h0, hive_edge_selection 1 1 0 0 0 0 h0 h0 h0 h0⟩

end Nxviz
